import Mathlib

/-!
Shallow embedding of the dataset-curation core of the repository
(src/PDBData/PDBDataset.py).  The container `PDBDataset` stores a list of
molecule records; the operations embedded here are `append`, `to_dgl`,
`save_npz` / `load_npz`, `parametrize`, `filter_validity`, `filter_confs`
and `from_hdf5`.  Machine floats are modelled as rationals, numpy arrays as
lists.  Per-molecule operations of the external `PDBMolecule` collaborator
(not part of src/) are modelled from the spec where a claim depends on them;
each such definition carries a doc comment saying so.
-/

namespace PDBData

/-- A named force-field label set attached to a molecule: per-conformation
computed energies and per-conformation, per-atom computed gradients. -/
structure FFLabel where
  energies : List ℚ
  gradients : List (List (List ℚ))
deriving DecidableEq, Inhabited

/-- A molecule record (the filtering-relevant surface of `PDBMolecule`):
element list, conformation geometries (conformation x atom x 3), reference
energies (one per conformation), reference gradients (conformation x atom x 3)
and zero or more named force-field label sets. -/
structure Molecule where
  elements : List ℤ
  xyz : List (List (List ℚ))
  energies : List ℚ
  gradients : List (List (List ℚ))
  labels : List (String × FFLabel)
deriving DecidableEq, Inhabited

/-- Number of stored conformations, given by the length of the
per-conformation reference-energy array. -/
def Molecule.numConfs (m : Molecule) : ℕ := m.energies.length

/-- Minimum of a rational list (the per-molecule energy minimum in
`filter_confs`); 0 for the empty list, which the source never queries. -/
def listMin (l : List ℚ) : ℚ := l.foldr min (l.headD 0)

/-- Mean of a rational list, as used for the per-molecule energy centering
in `from_hdf5` and for the mean baselines of the validity filter. -/
def listMean (l : List ℚ) : ℚ := l.sum / l.length

/-- Largest absolute component over one conformation's per-atom 3-vectors. -/
def maxAbsComp (conf : List (List ℚ)) : ℚ := (conf.flatten.map (fun x => |x|)).foldr max 0

/-- Flatten a per-conformation, per-atom array of 3-vectors into the flat
list of its scalar components. -/
def flat3 (g : List (List (List ℚ))) : List ℚ := g.flatten.flatten

/-- Sum of squared differences of two equally long lists (the residual sum
of squares between computed and reference values). -/
def sqDiffSum (a b : List ℚ) : ℚ := (List.zipWith (fun x y => (x - y) * (x - y)) a b).sum

/-- Sum of squared deviations of a list from its own mean (the
"always predict the mean" baseline of the validity filter). -/
def centeredSqSum (l : List ℚ) : ℚ := (l.map (fun x => (x - listMean l) * (x - listMean l))).sum

/-- Decide whether conformation `i` of `m` survives the conformation window:
its reference energy lies within `max_energy` of the molecule's own energy
minimum, and, when a force threshold is given, the largest absolute
gradient component of the conformation is within it. -/
def keepIdx (m : Molecule) (max_energy : ℚ) (max_force : Option ℚ) (i : ℕ) : Bool :=
  decide (m.energies.getD i 0 - listMin m.energies ≤ max_energy) &&
    (match max_force with
     | none => true
     | some mf => decide (maxAbsComp (m.gradients.getD i []) ≤ mf))

/-- Restrict a molecule to the conformations whose indices are listed in
`keep` (in order), pruning the geometry, reference and label arrays alike. -/
def selectConfs (m : Molecule) (keep : List ℕ) : Molecule :=
  { elements := m.elements
    xyz := keep.map (fun i => m.xyz.getD i [])
    energies := keep.map (fun i => m.energies.getD i 0)
    gradients := keep.map (fun i => m.gradients.getD i [])
    labels := m.labels.map (fun nl =>
      (nl.1,
        { energies := keep.map (fun i => nl.2.energies.getD i 0)
          gradients := keep.map (fun i => nl.2.gradients.getD i []) })) }

/-- Modelled from the spec: `PDBMolecule.filter_confs` (the per-molecule
conformation-window filter, not part of src/).  Keeps a conformation iff its
reference energy is within `max_energy` of the molecule's own minimum and,
when given, the maximal absolute force component is within `max_force`;
returns the pruned molecule together with the viability flag, which is true
iff at least 2 conformations remain. -/
def Molecule.filter_confs (m : Molecule) (max_energy : ℚ) (max_force : Option ℚ) :
    Molecule × Bool :=
  let keep := (List.range m.numConfs).filter (keepIdx m max_energy max_force)
  let m2 := selectConfs m keep
  (m2, decide (2 ≤ m2.numConfs))

/-- Modelled from the spec: `PDBMolecule.conf_check` (the per-molecule
validity check, not part of src/).  Looks up the force-field label named
`suffix` and demands that the residual sum of squares of the computed
energies (resp. flattened force components) is at most `sigma^2` times the
sum of squared deviations of the references from their own mean; this is
the squared, hence sqrt-free, form of "rms error at most sigma times the
rms of the mean baseline".  A molecule without the label fails the check. -/
def Molecule.conf_check (m : Molecule) (suffix : String) (sigmas : ℚ × ℚ) : Bool :=
  match List.lookup suffix m.labels with
  | none => false
  | some lb =>
      decide (sqDiffSum lb.energies m.energies ≤
        sigmas.1 * sigmas.1 * centeredSqSum m.energies) &&
      decide (sqDiffSum (flat3 lb.gradients) (flat3 m.gradients) ≤
        sigmas.2 * sigmas.2 * centeredSqSum (flat3 m.gradients))

namespace PDBDataset

/-- The `[mol for i, mol in enumerate(mols) if keep[i]]` compaction used by
both dataset-level filters: keep exactly the positions whose flag is true
(the two lists always have equal length at the call sites). -/
def applyKeep : List α → List Bool → List α
  | [], _ => []
  | _ :: _, [] => []
  | a :: t, b :: bs => if b then a :: applyKeep t bs else applyKeep t bs

/-- `PDBDataset.append`: appends the molecule to the container's list
(`self.mols.append(mol)`); the source performs no validation. -/
def append (mols : List Molecule) (mol : Molecule) : List Molecule :=
  mols ++ [mol]

/-- `PDBDataset.to_dgl`: with no index list, all indices are used in
container order; each listed index is converted by the external per-molecule
graph conversion `molToDgl`; if a split is requested, the external
`dgl.data.utils.split_dataset` (here the parameter `splitDataset`, fed the
split fractions and the seed) partitions the already-restricted graph list. -/
def to_dgl {G S : Type} (molToDgl : Molecule → G) (splitDataset : List G → List ℚ → ℕ → S)
    (mols : List Molecule) (idxs : Option (List ℕ)) (split : Option (List ℚ)) (seed : ℕ) :
    List G ⊕ S :=
  let is := match idxs with
    | none => List.range mols.length
    | some is => is
  let glist := is.map (fun i => molToDgl (mols.getD i default))
  match split with
  | none => Sum.inl glist
  | some s => Sum.inr (splitDataset glist s seed)

/-- File name of the archive written for the molecule at position `i`:
`str(id) + ".npz"`, as a character list (Python compares paths as strings). -/
def npzName (i : ℕ) : List Char := (toString i).toList ++ ".npz".toList

/-- Modelled from the spec: `PDBMolecule.compress` (not part of src/) writes
a round-trip-exact per-molecule archive, so the file content is identified
with the record itself. -/
def molCompress (m : Molecule) : Molecule := m

/-- Modelled from the spec: `PDBMolecule.load` (not part of src/) reads a
round-trip-exact per-molecule archive back into an identical record. -/
def molLoadNpz (m : Molecule) : Molecule := m

/-- The per-molecule archive files written by `save_npz` after the
existence check: `for id, mol in enumerate(self.mols): mol.compress(path/id.npz)`. -/
def save_files (mols : List Molecule) : List (List Char × Molecule) :=
  (List.range mols.length).map (fun i => (npzName i, molCompress (mols.getD i default)))

/-- `PDBDataset.save_npz`: raises `FileExistsError` when the target path
exists and `overwrite` is not set, before anything is written; otherwise
writes one archive per molecule, named by its integer position. -/
def save_npz (existingPaths : List String) (path : String) (overwrite : Bool)
    (mols : List Molecule) : Except String (List (List Char × Molecule)) :=
  if existingPaths.contains path && !overwrite then
    Except.error "FileExistsError"
  else
    Except.ok (save_files mols)

/-- Lexicographic comparison of character lists by code point, the order
Python's `sorted` uses on the (equal-directory) path strings in `load_npz`. -/
def charListLe : List Char → List Char → Bool
  | [], _ => true
  | _ :: _, [] => false
  | a :: as, b :: bs => if a < b then true else if b < a then false else charListLe as bs

/-- Order on archive files by their path string. -/
def pathLe (a b : List Char × Molecule) : Prop := charListLe a.1 b.1 = true

instance : DecidableRel pathLe := fun a b =>
  inferInstanceAs (Decidable (charListLe a.1 b.1 = true))

/-- `PDBDataset.load_npz`: with `keep_order` the files are sorted by path
(Python's `sorted`, modelled by insertion sort, which agrees with it because
the names here are pairwise distinct); without it they are taken in the
unspecified traversal order of the input list; each file is loaded back
into a molecule. -/
def load_npz (files : List (List Char × Molecule)) (keep_order : Bool) : List Molecule :=
  let ordered := if keep_order then List.insertionSort pathLe files else files
  ordered.map (fun p => molLoadNpz p.2)

/-- `PDBDataset.parametrize`: walks the container in order and applies the
external per-molecule parametrization (`mol.parametrize`, modelled by the
parameter `score`; `none` models a raised scorer error).  The exception is
not caught: processing stops at the first failing molecule, earlier
molecules keep their new labels, the failing one and all later ones are
untouched, and the error flag (second component) reports the propagated
exception. -/
def parametrize (score : Molecule → Option Molecule) : List Molecule → List Molecule × Bool
  | [] => ([], false)
  | m :: ms =>
    match score m with
    | some m2 => (m2 :: (parametrize score ms).1, (parametrize score ms).2)
    | none => (m :: ms, true)

/-- `PDBDataset.filter_validity`: computes the keep flag of every molecule
with the per-molecule validity check, then compacts the list in place. -/
def filter_validity (ds : List Molecule) (suffix : String) (sigmas : ℚ × ℚ) :
    List Molecule :=
  applyKeep ds (ds.map (fun m => m.conf_check suffix sigmas))

/-- `PDBDataset.filter_confs`: applies the per-molecule conformation filter
to every molecule (mutating it to its pruned form and recording the
viability flag), then compacts the list with the recorded flags. -/
def filter_confs (ds : List Molecule) (max_energy : ℚ) (max_force : Option ℚ) :
    List Molecule :=
  let results := ds.map (fun m => m.filter_confs max_energy max_force)
  applyKeep (results.map (fun p => p.1)) (results.map (fun p => p.2))

/-- One named group of the hdf5 archive, exposing the four arrays read by
`from_hdf5`; a missing array (`none`) makes the record malformed and raises
inside the per-record `try` block. -/
structure Hdf5Group where
  name : String
  elements : Option (List ℤ)
  energies : Option (List ℚ)
  xyz : Option (List (List (List ℚ)))
  grads : Option (List (List (List ℚ)))
deriving DecidableEq, Inhabited

/-- Subtract the per-molecule mean from an energy array
(`energies - energies.mean()` during ingestion). -/
def centerEnergies (l : List ℚ) : List ℚ := l.map (fun e => e - listMean l)

/-- Body of the per-record `try` block of `from_hdf5`: read the four arrays
(a missing one raises), convert units (the identity at the default canonical
units used here), center the energies at their own mean and build the
record (`PDBMolecule.from_xyz`, modelled from the spec as record
construction since it is not part of src/). -/
def processGroup (g : Hdf5Group) : Except Unit Molecule :=
  match g.elements, g.energies, g.xyz, g.grads with
  | some el, some en, some x, some gr =>
      Except.ok
        { elements := el
          xyz := x
          energies := centerEnergies en
          gradients := gr
          labels := [] }
  | _, _, _, _ => Except.error ()

/-- The `n_max` guard at the top of the ingestion loop:
`if len(obj) > n_max: break`. -/
def capReached : Option ℕ → ℕ → Bool
  | none, _ => false
  | some n, len => decide (n < len)

/-- The ingestion loop of `from_hdf5` over the remaining groups, carrying
the container list, the stored counter and the failed counter; the cap
guard runs before each record, a failing record either increments the
failed counter (`skip_errs`) or re-raises. -/
def from_hdf5Loop (n_max : Option ℕ) (skip_errs : Bool) :
    List Hdf5Group → List Molecule → ℕ → ℕ → Except Unit (List Molecule × ℕ × ℕ)
  | [], mols, c, f => Except.ok (mols, c, f)
  | g :: gs, mols, c, f =>
    if capReached n_max mols.length then Except.ok (mols, c, f)
    else
      match processGroup g with
      | Except.ok mol => from_hdf5Loop n_max skip_errs gs (mols ++ [mol]) (c + 1) f
      | Except.error e =>
          if skip_errs then from_hdf5Loop n_max skip_errs gs mols c (f + 1)
          else Except.error e

/-- `PDBDataset.from_hdf5`: folds the ingestion loop over the archive's
groups starting from the empty container and zeroed counters; the result is
the container together with the stored and failed counters, or the
propagated error when `skip_errs` is false and a record is malformed. -/
def from_hdf5 (groups : List Hdf5Group) (n_max : Option ℕ) (skip_errs : Bool) :
    Except Unit (List Molecule × ℕ × ℕ) :=
  from_hdf5Loop n_max skip_errs groups [] 0 0

/-- Whether a group parses without error. -/
def groupOk (g : Hdf5Group) : Bool := (processGroup g).toOption.isSome

instance {ε α : Type} [DecidableEq ε] [DecidableEq α] : DecidableEq (Except ε α) := fun a b =>
  match a, b with
  | Except.ok x, Except.ok y =>
      if h : x = y then Decidable.isTrue (by rw [h]) else Decidable.isFalse (by simp [h])
  | Except.error x, Except.error y =>
      if h : x = y then Decidable.isTrue (by rw [h]) else Decidable.isFalse (by simp [h])
  | Except.ok _, Except.error _ => Decidable.isFalse (by simp)
  | Except.error _, Except.ok _ => Decidable.isFalse (by simp)

end PDBDataset

/-- A concrete one-atom molecule with three conformations at reference
energies 0, 10 and 100 whose force-field label reproduces the reference
data exactly; used to instantiate the general theorems below. -/
def mA : Molecule :=
  { elements := [1]
    xyz := [[[0, 0, 0]], [[1, 0, 0]], [[2, 0, 0]]]
    energies := [0, 10, 100]
    gradients := [[[0, 0, 0]], [[0, 0, 0]], [[0, 0, 0]]]
    labels := [("ff",
      { energies := [0, 10, 100]
        gradients := [[[0, 0, 0]], [[0, 0, 0]], [[0, 0, 0]]] })] }

/-- A concrete record with no conformations at all. -/
def mEmpty : Molecule :=
  { elements := [1], xyz := [], energies := [], gradients := [], labels := [] }

/-- A concrete external parametrization for instantiating the parametrize
theorem: it fails exactly on records without conformations and otherwise
attaches a copy of the reference data as the label "ff". -/
def toyScore (m : Molecule) : Option Molecule :=
  if m.energies.isEmpty then none
  else some { m with labels := [("ff", { energies := m.energies, gradients := m.gradients })] }

/-- A concrete well-formed archive group. -/
def gGood1 : PDBDataset.Hdf5Group :=
  { name := "g1"
    elements := some [1]
    energies := some [0, 2]
    xyz := some [[[0, 0, 0]], [[1, 0, 0]]]
    grads := some [[[0, 0, 0]], [[0, 0, 0]]] }

/-- A second concrete well-formed archive group. -/
def gGood2 : PDBDataset.Hdf5Group :=
  { name := "g2"
    elements := some [6]
    energies := some [1, 3]
    xyz := some [[[0, 0, 0]], [[0, 1, 0]]]
    grads := some [[[0, 0, 0]], [[0, 0, 0]]] }

/-- A concrete malformed archive group (its energy array is missing). -/
def gBad : PDBDataset.Hdf5Group :=
  { name := "bad"
    elements := some [1]
    energies := none
    xyz := some [[[0, 0, 0]]]
    grads := some [[[0, 0, 0]]] }

/-- The molecule record obtained from `gGood1` (energies centered at their
mean 1). -/
def procGood1 : Molecule :=
  { elements := [1]
    xyz := [[[0, 0, 0]], [[1, 0, 0]]]
    energies := [-1, 1]
    gradients := [[[0, 0, 0]], [[0, 0, 0]]]
    labels := [] }

open PDBDataset

/-- Compacting a list with the flags computed by a predicate on it is the
same as filtering by that predicate. -/
theorem applyKeep_map (l : List α) (p : α → Bool) :
    applyKeep l (l.map p) = l.filter p := by
  induction l with
  | nil => rfl
  | cons a t ih =>
    cases h : p a <;> simp [applyKeep, List.filter_cons, h, ih]

/-- Reading every position of a list in order recovers the list. -/
theorem map_getD_range (l : List α) (d : α) :
    (List.range l.length).map (fun i => l.getD i d) = l := by
  apply List.ext_getElem
  · simp
  · intro i h1 h2
    simp only [List.getElem_map, List.getElem_range]
    exact List.getD_eq_getElem l d h2

/-- Applying a function to every position of a list in order is mapping it. -/
theorem map_comp_getD_range (l : List α) (f : α → β) (d : α) :
    (List.range l.length).map (fun i => f (l.getD i d)) = l.map f := by
  have h : (fun i => f (l.getD i d)) = f ∘ fun i => l.getD i d := rfl
  rw [h, ← List.map_map, map_getD_range]

/-- The lexicographic comparison of character lists is total. -/
theorem charListLe_total : ∀ a b : List Char, charListLe a b = true ∨ charListLe b a = true
  | [], _ => Or.inl rfl
  | _ :: _, [] => Or.inr rfl
  | a :: as, b :: bs => by
    rcases lt_trichotomy a b with h | h | h
    · exact Or.inl (by simp [charListLe, h])
    · subst h
      rcases charListLe_total as bs with h2 | h2
      · exact Or.inl (by simp [charListLe, h2])
      · exact Or.inr (by simp [charListLe, h2])
    · exact Or.inr (by simp [charListLe, h])

/-- The lexicographic comparison of character lists is transitive. -/
theorem charListLe_trans : ∀ a b c : List Char,
    charListLe a b = true → charListLe b c = true → charListLe a c = true
  | [], _, _, _, _ => rfl
  | _ :: _, [], _, h1, _ => by simp [charListLe] at h1
  | _ :: _, _ :: _, [], _, h2 => by simp [charListLe] at h2
  | a :: as, b :: bs, c :: cs, h1, h2 => by
    simp only [charListLe] at h1 h2 ⊢
    rcases lt_trichotomy a b with hab | hab | hab
    · rcases lt_trichotomy b c with hbc | hbc | hbc
      · simp [lt_trans hab hbc]
      · subst hbc; simp [hab]
      · rw [if_neg (lt_asymm hbc), if_pos hbc] at h2; exact absurd h2 (by simp)
    · subst hab
      rcases lt_trichotomy a c with hac | hac | hac
      · simp [hac]
      · subst hac
        simp only [lt_irrefl, if_false] at h1 h2 ⊢
        exact charListLe_trans as bs cs h1 h2
      · rw [if_neg (lt_asymm hac), if_pos hac] at h2; exact absurd h2 (by simp)
    · rw [if_neg (lt_asymm hab), if_pos hab] at h1; exact absurd h1 (by simp)

instance : IsTotal (List Char × Molecule) pathLe :=
  ⟨fun a b => charListLe_total a.1 b.1⟩

instance : IsTrans (List Char × Molecule) pathLe :=
  ⟨fun a b c => charListLe_trans a.1 b.1 c.1⟩

/-- The archive files written by `save_npz` load back (with `keep_order`)
to a permutation of the saved container. -/
theorem load_save_perm (mols : List Molecule) :
    (load_npz (save_files mols) true).Perm mols := by
  have hred : load_npz (save_files mols) true
      = (List.insertionSort pathLe (save_files mols)).map (fun p => molLoadNpz p.2) := rfl
  have hmap : (save_files mols).map (fun p => molLoadNpz p.2) = mols := by
    rw [save_files, List.map_map]
    exact map_getD_range mols default
  have hperm := (List.perm_insertionSort pathLe (save_files mols)).map
    (fun p => molLoadNpz p.2)
  rw [hred]
  refine hperm.trans ?h
  rw [hmap]

/-- The file names produced by `save_files` are the position-numbered
archive names in numeric order. -/
theorem save_files_names (mols : List Molecule) :
    (save_files mols).map Prod.fst = (List.range mols.length).map npzName := by
  rw [save_files, List.map_map]
  rfl

/-- With error skipping and no cap, the ingestion loop returns all
well-formed groups appended in order, counting successes and failures. -/
theorem from_hdf5Loop_skip_none (gs : List Hdf5Group) :
    ∀ (mols : List Molecule) (c f : ℕ),
      from_hdf5Loop none true gs mols c f
        = Except.ok (mols ++ gs.filterMap (fun g => (processGroup g).toOption),
            c + gs.countP groupOk, f + gs.countP (fun g => !groupOk g)) := by
  induction gs with
  | nil => intro mols c f; simp [from_hdf5Loop]
  | cons g gs ih =>
    intro mols c f
    cases h : processGroup g with
    | ok mol =>
      have hred : from_hdf5Loop none true (g :: gs) mols c f
          = from_hdf5Loop none true gs (mols ++ [mol]) (c + 1) f := by
        simp [from_hdf5Loop, capReached, h]
      rw [hred, ih]
      simp only [Except.ok.injEq, Prod.mk.injEq]
      refine ⟨?_, ?_, ?_⟩
      · simp [List.filterMap_cons, h, Except.toOption]
      · simp only [List.countP_cons, groupOk, h, Except.toOption, Option.isSome_some]
        simp
        omega
      · simp [List.countP_cons, groupOk, h, Except.toOption]
    | error e =>
      have hred : from_hdf5Loop none true (g :: gs) mols c f
          = from_hdf5Loop none true gs mols c (f + 1) := by
        simp [from_hdf5Loop, capReached, h]
      rw [hred, ih]
      simp only [Except.ok.injEq, Prod.mk.injEq]
      refine ⟨?_, ?_, ?_⟩
      · simp [List.filterMap_cons, h, Except.toOption]
      · simp [List.countP_cons, groupOk, h, Except.toOption]
      · simp only [List.countP_cons, groupOk, h, Except.toOption, Option.isSome_none]
        simp
        omega

/-- Without error skipping, a malformed group anywhere in the remaining
list aborts the whole uncapped ingestion with the propagated error. -/
theorem from_hdf5Loop_noskip_error (gs : List Hdf5Group) :
    ∀ (mols : List Molecule) (c f : ℕ),
      (∃ g ∈ gs, processGroup g = Except.error ()) →
      from_hdf5Loop none false gs mols c f = Except.error () := by
  induction gs with
  | nil =>
    intro mols c f h
    rcases h with ⟨g, hg, _⟩
    simp at hg
  | cons g gs ih =>
    intro mols c f h
    simp only [from_hdf5Loop, capReached, if_false, Bool.false_eq_true]
    cases hp : processGroup g with
    | ok mol =>
      apply ih
      rcases h with ⟨g2, hg2, he⟩
      rcases List.mem_cons.mp hg2 with rfl | hmem
      · rw [hp] at he; cases he
      · exact ⟨g2, hmem, he⟩
    | error e =>
      cases e
      simp

/-- The capped ingestion loop never grows the container past `n + 1`
records (invariant form). -/
theorem from_hdf5Loop_cap_le (n : ℕ) (skip : Bool) (gs : List Hdf5Group) :
    ∀ (mols : List Molecule) (c f : ℕ) (mols2 : List Molecule) (c2 f2 : ℕ),
      mols.length ≤ n + 1 →
      from_hdf5Loop (some n) skip gs mols c f = Except.ok (mols2, c2, f2) →
      mols2.length ≤ n + 1 := by
  induction gs with
  | nil =>
    intro mols c f mols2 c2 f2 hlen h
    simp only [from_hdf5Loop, Except.ok.injEq, Prod.mk.injEq] at h
    rcases h with ⟨rfl, -, -⟩
    exact hlen
  | cons g gs ih =>
    intro mols c f mols2 c2 f2 hlen h
    simp only [from_hdf5Loop] at h
    by_cases hcap : capReached (some n) mols.length = true
    · rw [if_pos hcap] at h
      simp only [Except.ok.injEq, Prod.mk.injEq] at h
      rcases h with ⟨rfl, -, -⟩
      exact hlen
    · rw [if_neg hcap] at h
      have hle : mols.length ≤ n := by
        simp only [capReached, decide_eq_true_eq] at hcap
        omega
      cases hp : processGroup g with
      | ok mol =>
        simp only [hp] at h
        refine ih (mols ++ [mol]) (c + 1) f mols2 c2 f2 ?hl h
        simp
        omega
      | error e =>
        simp only [hp] at h
        by_cases hs : skip = true
        · rw [if_pos hs] at h
          exact ih mols c (f + 1) mols2 c2 f2 hlen h
        · rw [if_neg hs] at h
          cases h

/-- Successes and failures partition a list. -/
theorem countP_not_add (p : α → Bool) (l : List α) :
    l.countP p + l.countP (fun a => !p a) = l.length := by
  induction l with
  | nil => rfl
  | cons a t ih => cases h : p a <;> simp [List.countP_cons, h] <;> omega

/-- C1: after the dataset-level `filter_confs` pass the container holds
exactly those pruned molecules whose per-molecule filter returned true,
i.e. those with at least 2 conformations left after pruning; every pruned
molecule with fewer than 2 conformations is absent, and the retained
molecules keep their original relative order (the result is a sublist of
the pruned sequence). -/
theorem filter_confs_drops_underfilled (ds : List Molecule) (me : ℚ) (mf : Option ℚ) :
    PDBDataset.filter_confs ds me mf
        = (ds.map (fun m => (m.filter_confs me mf).1)).filter (fun m => decide (2 ≤ m.numConfs))
    ∧ List.Sublist (PDBDataset.filter_confs ds me mf)
        (ds.map (fun m => (m.filter_confs me mf).1))
    ∧ (∀ m, m ∈ PDBDataset.filter_confs ds me mf → 2 ≤ m.numConfs)
    ∧ (∀ m : Molecule,
        (m.filter_confs me mf).2 = true ↔ 2 ≤ (m.filter_confs me mf).1.numConfs) := by
  have hsnd : ds.map (fun m => (Molecule.filter_confs m me mf).2)
      = (ds.map (fun m => (Molecule.filter_confs m me mf).1)).map
          (fun m => decide (2 ≤ m.numConfs)) := by
    rw [List.map_map]
    rfl
  have hmain : PDBDataset.filter_confs ds me mf
      = (ds.map (fun m => (m.filter_confs me mf).1)).filter
          (fun m => decide (2 ≤ m.numConfs)) := by
    show applyKeep ((ds.map (fun m => m.filter_confs me mf)).map (fun p => p.1))
        ((ds.map (fun m => m.filter_confs me mf)).map (fun p => p.2)) = _
    rw [List.map_map, List.map_map]
    simp only [Function.comp_def]
    rw [hsnd, applyKeep_map]
  refine ⟨hmain, ?_, ?_, ?_⟩
  · rw [hmain]
    exact List.filter_sublist _
  · intro m hm
    rw [hmain] at hm
    have h := List.of_mem_filter hm
    simpa using h
  · intro m
    show decide (2 ≤ (Molecule.filter_confs m me mf).1.numConfs) = true ↔ _
    exact ⟨of_decide_eq_true, decide_eq_true⟩

/-- C2: `filter_validity` removes, in place, exactly the molecules whose
per-molecule validity check returns false; the survivors form a sublist of
the original container (unmodified records, original relative order), and
the check passes precisely when the stored label exists and both the
energy and the force criterion hold. -/
theorem filter_validity_keeps_exactly_valid (ds : List Molecule) (suffix : String)
    (sg : ℚ × ℚ) :
    filter_validity ds suffix sg = ds.filter (fun m => m.conf_check suffix sg)
    ∧ List.Sublist (filter_validity ds suffix sg) ds
    ∧ (∀ m, m ∈ filter_validity ds suffix sg ↔ m ∈ ds ∧ m.conf_check suffix sg = true)
    ∧ (∀ m : Molecule, m.conf_check suffix sg = true ↔
        ∃ lb, List.lookup suffix m.labels = some lb
          ∧ sqDiffSum lb.energies m.energies ≤ sg.1 * sg.1 * centeredSqSum m.energies
          ∧ sqDiffSum (flat3 lb.gradients) (flat3 m.gradients)
              ≤ sg.2 * sg.2 * centeredSqSum (flat3 m.gradients)) := by
  have hmain : filter_validity ds suffix sg = ds.filter (fun m => m.conf_check suffix sg) :=
    applyKeep_map ds _
  refine ⟨hmain, ?_, ?_, ?_⟩
  · rw [hmain]
    exact List.filter_sublist _
  · intro m
    rw [hmain]
    exact List.mem_filter
  · intro m
    cases h : List.lookup suffix m.labels with
    | none => simp [Molecule.conf_check, h]
    | some lb => simp [Molecule.conf_check, h]

/-- C2 witness: the exactly-labelled molecule `mA` passes the validity
check at sigmas (1, 1) and is therefore kept. -/
theorem filter_validity_keeps_exactly_valid_witness :
    mA ∈ [mA] ∧ Molecule.conf_check mA "ff" (1, 1) = true :=
  ((filter_validity_keeps_exactly_valid [mA] "ff" (1, 1)).2.2.1 mA).mp
    (by with_unfolding_all decide)

/-- C1 witness: with threshold 60 the three-conformation molecule `mA`
keeps two conformations and survives the pass. -/
theorem filter_confs_drops_underfilled_witness :
    2 ≤ (Molecule.filter_confs mA 60 none).1.numConfs :=
  (filter_confs_drops_underfilled [mA] 60 none).2.2.1 (Molecule.filter_confs mA 60 none).1
    (by with_unfolding_all decide)

/-- C9: the three export modes of `to_dgl` compose as specified: no index
list and no split exports every molecule in container order; an index list
exports exactly the graphs at those indices in the given order; a split
partitions the graph list already restricted by the index subset, and no
partitioning happens when no split is requested. -/
theorem to_dgl_modes {G S : Type} (f : Molecule → G) (sp : List G → List ℚ → ℕ → S)
    (mols : List Molecule) (seed : ℕ) :
    to_dgl f sp mols none none seed = Sum.inl (mols.map f)
    ∧ (∀ idxs : List ℕ, to_dgl f sp mols (some idxs) none seed
        = Sum.inl (idxs.map (fun i => f (mols.getD i default))))
    ∧ (∀ (idxs : List ℕ) (s : List ℚ), to_dgl f sp mols (some idxs) (some s) seed
        = Sum.inr (sp (idxs.map (fun i => f (mols.getD i default))) s seed))
    ∧ (∀ s : List ℚ, to_dgl f sp mols none (some s) seed
        = Sum.inr (sp (mols.map f) s seed)) := by
  refine ⟨?_, fun idxs => rfl, fun idxs s => rfl, ?_⟩
  · show Sum.inl ((List.range mols.length).map (fun i => f (mols.getD i default))) = _
    rw [map_comp_getD_range]
  · intro s
    show Sum.inr (sp ((List.range mols.length).map (fun i => f (mols.getD i default))) s seed)
        = _
    rw [map_comp_getD_range]

/-- C7 counterexample: `append` accepts a record with zero conformations
without any rejection — the container grows by one and holds the record —
refuting the claimed validation "rejecting records with zero
conformations". -/
theorem append_zero_conf_cex :
    mEmpty.numConfs = 0
    ∧ append [] mEmpty = [mEmpty]
    ∧ (append [] mEmpty).length = 1 :=
  ⟨rfl, rfl, rfl⟩

/-- C7 (amended): `append` performs no validation at all; it always appends
the record, the length grows by exactly one and the previously stored
molecules are unchanged. -/
theorem append_amended (mols : List Molecule) (mol : Molecule) :
    append mols mol = mols ++ [mol]
    ∧ (append mols mol).length = mols.length + 1
    ∧ (append mols mol).take mols.length = mols :=
  ⟨rfl, by simp [append], by simp [append]⟩

/-- C5: when the target path already exists and `overwrite` is false,
`save_npz` raises `FileExistsError` before writing anything: no archive
file is produced. -/
theorem save_npz_existing_path (existing : List String) (path : String) (mols : List Molecule)
    (h : existing.contains path = true) :
    save_npz existing path false mols = Except.error "FileExistsError" := by
  have h2 : path ∈ existing := by simpa using h
  simp [save_npz, h2]

/-- C5 witness at a concrete existing path. -/
theorem save_npz_existing_path_witness :
    save_npz ["ds"] "ds" false [mA] = Except.error "FileExistsError" :=
  save_npz_existing_path ["ds"] "ds" [mA] (by decide)

/-- C4: saving to a fresh path succeeds, and loading the written archive
files with `keep_order = true` returns a permutation of the saved container:
the same number of molecules, the same membership, every record recovered
exactly (the per-molecule archive is round-trip exact), though not
necessarily in insertion order. -/
theorem save_load_roundtrip (existing : List String) (path : String) (mols : List Molecule)
    (h : existing.contains path = false) :
    ∃ files, save_npz existing path false mols = Except.ok files
      ∧ (load_npz files true).Perm mols
      ∧ (load_npz files true).length = mols.length := by
  refine ⟨save_files mols, ?_, load_save_perm mols, (load_save_perm mols).length_eq⟩
  have h2 : path ∉ existing := by simpa using h
  simp [save_npz, h2]

/-- C4 witness at a concrete fresh path and two-molecule dataset. -/
theorem save_load_roundtrip_witness :
    ∃ files, save_npz [] "fresh" false [mA, mEmpty] = Except.ok files
      ∧ (load_npz files true).Perm [mA, mEmpty]
      ∧ (load_npz files true).length = [mA, mEmpty].length :=
  save_load_roundtrip [] "fresh" [mA, mEmpty] (by decide)

/-- C6: if the external scorer fails first at position `i`, `parametrize`
propagates the error (flag `true`, never silently caught) and leaves the
container in the prefix state: molecules before `i` carry their newly
computed labels, the erroring molecule and all later ones are untouched. -/
theorem parametrize_error_prefix (score : Molecule → Option Molecule) :
    ∀ (mols : List Molecule) (i : ℕ),
      i < mols.length →
      score (mols.getD i default) = none →
      (∀ j, j < i → (score (mols.getD j default)).isSome = true) →
      parametrize score mols
        = ((mols.take i).map (fun m => (score m).getD m) ++ mols.drop i, true) := by
  intro mols
  induction mols with
  | nil =>
    intro i hi
    simp at hi
  | cons m ms ih =>
    intro i hi hfail hok
    cases i with
    | zero =>
      have hm : score m = none := hfail
      simp [parametrize, hm]
    | succ k =>
      have h0 : (score m).isSome = true := by simpa using hok 0 (Nat.succ_pos k)
      rcases Option.isSome_iff_exists.mp h0 with ⟨m2, hm2⟩
      have hrec := ih k (by simpa using hi) (by simpa using hfail)
        (fun j hj => by simpa using hok (j + 1) (Nat.succ_lt_succ hj))
      simp only [parametrize, hm2]
      rw [hrec]
      simp [hm2]

/-- C6 witness: the toy scorer fails on the conformationless second
molecule; the first molecule keeps its new label, the rest is untouched
and the error is propagated. -/
theorem parametrize_error_prefix_witness :
    parametrize toyScore [mA, mEmpty]
      = (([mA, mEmpty].take 1).map (fun m => (toyScore m).getD m)
          ++ [mA, mEmpty].drop 1, true) :=
  parametrize_error_prefix toyScore [mA, mEmpty] 1 (by decide) (by decide)
    (fun j hj => by
      have hj0 : j = 0 := by omega
      subst hj0
      decide)

/-- C3: with `skip_errs` every malformed group is skipped, the failure
counter counts exactly the malformed groups and all well-formed groups are
loaded in order; without `skip_errs` a malformed group makes the whole
ingestion abort with the propagated error. -/
theorem from_hdf5_skip_errs (groups : List Hdf5Group) :
    from_hdf5 groups none true
        = Except.ok (groups.filterMap (fun g => (processGroup g).toOption),
            groups.countP groupOk, groups.countP (fun g => !groupOk g))
    ∧ ((∃ g ∈ groups, processGroup g = Except.error ()) →
        from_hdf5 groups none false = Except.error ()) := by
  constructor
  · have h := from_hdf5Loop_skip_none groups [] 0 0
    simpa [from_hdf5] using h
  · intro h
    exact from_hdf5Loop_noskip_error groups [] 0 0 h

/-- C3 witness: one malformed group among two is skipped with failure
counter 1 when errors are skipped, and aborts ingestion otherwise. -/
theorem from_hdf5_skip_errs_witness :
    from_hdf5 [gGood1, gBad] none true = Except.ok ([procGood1], 1, 1)
    ∧ from_hdf5 [gGood1, gBad] none false = Except.error () := by
  constructor
  · exact (from_hdf5_skip_errs [gGood1, gBad]).1.trans (by with_unfolding_all decide)
  · exact (from_hdf5_skip_errs [gGood1, gBad]).2 ⟨gBad, by simp, by decide⟩

/-- C8: whenever the capped ingestion returns a container it holds at most
`n_max + 1` molecules (the cap is soft: checked only before a record, so it
can be exceeded by exactly one), and without a cap every group is
processed: the container holds every well-formed group and the two counters
add up to the total number of groups. -/
theorem from_hdf5_soft_cap (groups : List Hdf5Group) (n : ℕ) (skip : Bool) :
    (∀ (mols : List Molecule) (c f : ℕ),
        from_hdf5 groups (some n) skip = Except.ok (mols, c, f) → mols.length ≤ n + 1)
    ∧ (∀ (mols : List Molecule) (c f : ℕ),
        from_hdf5 groups none true = Except.ok (mols, c, f) →
          mols = groups.filterMap (fun g => (processGroup g).toOption)
          ∧ c + f = groups.length) := by
  constructor
  · intro mols c f h
    exact from_hdf5Loop_cap_le n skip groups [] 0 0 mols c f (by simp) h
  · intro mols c f h
    have h2 := from_hdf5Loop_skip_none groups [] 0 0
    have h3 := h2.symm.trans h
    simp only [List.nil_append, Nat.zero_add, Except.ok.injEq, Prod.mk.injEq] at h3
    rcases h3 with ⟨h4, h5, h6⟩
    refine ⟨h4.symm, ?_⟩
    rw [← h5, ← h6]
    exact countP_not_add groupOk groups

/-- C8 witness: with `n_max = 0` and two well-formed groups, ingestion
stops after the cap check with one molecule stored: the cap of 0 was
exceeded by exactly one. -/
theorem from_hdf5_soft_cap_witness :
    [procGood1].length ≤ 0 + 1 :=
  (from_hdf5_soft_cap [gGood1, gGood2] 0 true).1 [procGood1] 1 0
    (by with_unfolding_all decide)

/-- C10 counterexample: a dataset of 11 identical molecules round-trips to
exactly the original list even though it has more than 10 molecules — the
claim that the loaded order differs from the insertion order for every such
dataset is false. -/
theorem load_npz_order_cex :
    10 < (List.replicate 11 mEmpty).length
    ∧ load_npz (save_files (List.replicate 11 mEmpty)) true = List.replicate 11 mEmpty := by
  constructor
  · decide
  · with_unfolding_all decide

/-- C10 (amended): `load_npz` with `keep_order` sorts the archive files
lexicographically by path, so for every dataset with more than 10 molecules
the file order after sorting differs from the numeric save order
("10.npz" sorts between "1.npz" and "2.npz"); membership of the loaded
container is nevertheless fully preserved (a permutation of the original),
though the loaded molecule list itself can coincide with the original when
molecules repeat. -/
theorem load_npz_lex_order (mols : List Molecule) (h : 10 < mols.length) :
    (List.insertionSort pathLe (save_files mols)).map Prod.fst
        ≠ (save_files mols).map Prod.fst
    ∧ (load_npz (save_files mols) true).Perm mols := by
  refine ⟨?_, load_save_perm mols⟩
  intro hEq
  have hs : List.Pairwise pathLe (List.insertionSort pathLe (save_files mols)) :=
    List.sorted_insertionSort pathLe (save_files mols)
  have hp : List.Pairwise (fun x y : List Char => charListLe x y = true)
      ((List.insertionSort pathLe (save_files mols)).map Prod.fst) :=
    hs.map Prod.fst (fun a b hab => hab)
  rw [hEq, save_files_names] at hp
  have h9 : 9 < ((List.range mols.length).map npzName).length := by
    simp
    omega
  have h10 : 10 < ((List.range mols.length).map npzName).length := by
    simp
    omega
  have hrel := List.pairwise_iff_getElem.mp hp 9 10 h9 h10 (by omega)
  simp only [List.getElem_map, List.getElem_range] at hrel
  exact absurd hrel (by decide)

/-- C10 amended witness at a concrete dataset of 11 molecules. -/
theorem load_npz_lex_order_witness :
    (List.insertionSort pathLe (save_files (List.replicate 11 mEmpty))).map Prod.fst
        ≠ (save_files (List.replicate 11 mEmpty)).map Prod.fst
    ∧ (load_npz (save_files (List.replicate 11 mEmpty)) true).Perm
        (List.replicate 11 mEmpty) :=
  load_npz_lex_order (List.replicate 11 mEmpty) (by decide)

end PDBData
